import Mathlib

/-!
Verification development for the bank-PDF-to-spreadsheet converter
(`pdf_to_excel_converter.py`).

The heuristic core of the program is shallowly embedded here:

* Python strings are `List Char`; `str.lower`, `str.strip`, `str.replace`,
  `in` (substring), `sorted`, `set` deduplication and `dict` insertion-order
  semantics are embedded explicitly.
* The two module-level regular expressions `DATE_RE` and `AMOUNT_RE` are
  embedded as hand-written leftmost-match scanners with the same
  alternation, greediness and backtracking behaviour as Python `re.search`.
* Python floats are embedded as rationals (`ℚ`).  Every amount the program
  can produce has at most two decimal digits, so no floating-point rounding
  is observable and the rational embedding is exact.
* The external `dateutil` parser is an outside collaborator of the
  repository; it is modelled from the spec (day-first ambiguity resolution,
  ISO disambiguation).  See `parseDateGroup`.
* The `pdfplumber` extraction that can raise is modelled by an `Except`
  input; the optional OCR collaborator by an `Option` input.
-/

namespace PdfToExcel

/-- Python `\s` whitespace class (ASCII part, which is all the program meets). -/
def isPyWS (c : Char) : Bool :=
  c == ' ' || c == '\t' || c == '\n' || c == '\x0d' || c == '\x0c' || c == '\x0b'

/-- Python `str.lower()` on the ASCII strings the program manipulates. -/
def pyLower (s : List Char) : List Char :=
  s.map Char.toLower

/-- `listPrefixOf p s` : `p` is a prefix of `s` (Boolean). -/
def listPrefixOf : List Char → List Char → Bool
  | [], _ => true
  | _ :: _, [] => false
  | a :: as, b :: bs => a == b && listPrefixOf as bs

/-- Python `needle in hay` for strings: substring containment. -/
def containsSub (needle : List Char) : List Char → Bool
  | [] => needle.isEmpty
  | c :: cs => listPrefixOf needle (c :: cs) || containsSub needle cs

/-- Python `str.strip()`: remove leading and trailing whitespace. -/
def pyStrip (s : List Char) : List Char :=
  ((s.dropWhile isPyWS).reverse.dropWhile isPyWS).reverse

/-- Decimal value of a digit string. -/
def digitsToNat (s : List Char) : Nat :=
  s.foldl (fun n c => 10 * n + (c.toNat - 48)) 0

/-- First success in a list of candidates: the backtracking order of a
regex engine trying greedy alternatives first. -/
def firstSome {α β : Type} (f : α → Option β) : List α → Option β
  | [] => none
  | a :: as =>
    match f a with
    | some b => some b
    | none => firstSome f as

/-- Greedy candidates for an optional single-character class `X?`:
with the character first (greedy), then without. -/
def optTake (p : Char → Bool) (s : List Char) : List (List Char × List Char) :=
  match s with
  | c :: cs => if p c then [([c], cs), ([], c :: cs)] else [([], c :: cs)]
  | [] => [([], [])]

/-- Exactly `n` digits from the front, returning them and the rest. -/
def takeExactDigits : Nat → List Char → Option (List Char × List Char)
  | 0, s => some ([], s)
  | _ + 1, [] => none
  | n + 1, c :: cs =>
    if c.isDigit then
      match takeExactDigits n cs with
      | some (d, r) => some (c :: d, r)
      | none => none
    else none

/-- Greedy candidates for `\d{m,n}`: the counts are listed greedily
(largest first) and each candidate must consume exactly that many digits. -/
def digitChoices (counts : List Nat) (s : List Char) : List (List Char × List Char) :=
  counts.filterMap (fun k => takeExactDigits k s)

/-- The slash-or-dash separator class of `DATE_RE`. -/
def sepChoice (s : List Char) : Option (Char × List Char) :=
  match s with
  | c :: cs => if c == '/' || c == '-' then some (c, cs) else none
  | [] => none

/-- First alternative of `DATE_RE`: two slash-or-dash separated 1-2 digit groups then a 2-4 digit group,
matched at the current position with regex backtracking. -/
def dateAlt1 (s : List Char) : Option (List Char) :=
  firstSome (fun pr1 =>
    match sepChoice pr1.2 with
    | none => none
    | some (s1, r1) =>
      firstSome (fun pr2 =>
        match sepChoice pr2.2 with
        | none => none
        | some (s2, r2) =>
          firstSome (fun pr3 => some (pr1.1 ++ s1 :: (pr2.1 ++ s2 :: pr3.1)))
            (digitChoices [4, 3, 2] r2))
        (digitChoices [2, 1] r1))
    (digitChoices [2, 1] s)

/-- Second alternative of `DATE_RE`: a 4 digit group then two slash-or-dash separated 1-2 digit groups. -/
def dateAlt2 (s : List Char) : Option (List Char) :=
  match takeExactDigits 4 s with
  | none => none
  | some (d1, r0) =>
    match sepChoice r0 with
    | none => none
    | some (s1, r1) =>
      firstSome (fun pr2 =>
        match sepChoice pr2.2 with
        | none => none
        | some (s2, r2) =>
          firstSome (fun pr3 => some (d1 ++ s1 :: (pr2.1 ++ s2 :: pr3.1)))
            (digitChoices [2, 1] r2))
        (digitChoices [2, 1] r1)

/-- `DATE_RE.search`: leftmost match, first alternative preferred at each
position, scanning positions left to right. -/
def dateSearch : List Char → Option (List Char)
  | [] => none
  | c :: cs =>
    match dateAlt1 (c :: cs) with
    | some g => some g
    | none =>
      match dateAlt2 (c :: cs) with
      | some g => some g
      | none => dateSearch cs

/-- Split a matched date group on its `/` or `-` separators. -/
def splitSepTokens : List Char → List (List Char)
  | [] => [[]]
  | c :: cs =>
    let r := splitSepTokens cs
    if c == '/' || c == '-' then [] :: r
    else
      match r with
      | h :: t => (c :: h) :: t
      | [] => [[c]]

/-- A calendar date as produced by `datetime.date`. -/
structure PyDate where
  year : Nat
  month : Nat
  day : Nat
deriving DecidableEq, Repr

/-- Gregorian leap year. -/
def isLeapYear (y : Nat) : Bool :=
  y % 4 == 0 && (y % 100 != 0 || y % 400 == 0)

/-- Days in a month of a given year. -/
def daysInMonth (y m : Nat) : Nat :=
  if m == 2 then (if isLeapYear y then 29 else 28)
  else if m == 4 || m == 6 || m == 9 || m == 11 then 30
  else 31

/-- Day/month/year triple denotes a real calendar date. -/
def validDMY (d m y : Nat) : Bool :=
  1 ≤ m && m ≤ 12 && 1 ≤ d && d ≤ daysInMonth y m

/-- Modelled from the spec: the external date-parsing utility converts a
two-digit year token to the century within fifty years of the present
(so `23` denotes 2023); longer year tokens are taken literally. -/
def convertYearTok (tok : List Char) : Nat :=
  let v := digitsToNat tok
  if tok.length ≤ 2 then (if v ≤ 75 then 2000 + v else 1900 + v) else v

/-- Modelled from the spec: the external `dateutil` collaborator applied to
a group matched by `DATE_RE`, with "day-first ambiguity resolution" —
a leading 4-digit token fixes year/month/day order regardless of the
day-first flag (the ISO form disambiguates); otherwise the day-first flag
chooses which of the two leading tokens is tried as the day first, falling
back to the other reading when the first is not a real calendar date. -/
def parseDateGroup (dayfirst : Bool) (g : List Char) : Option PyDate :=
  match splitSepTokens g with
  | [t1, t2, t3] =>
    let a := digitsToNat t1
    let b := digitsToNat t2
    let c := digitsToNat t3
    if t1.length == 4 then
      if validDMY c b a then some ⟨a, b, c⟩ else none
    else
      let y := convertYearTok t3
      if dayfirst then
        if validDMY a b y then some ⟨y, b, a⟩
        else if validDMY b a y then some ⟨y, a, b⟩
        else none
      else
        if validDMY b a y then some ⟨y, a, b⟩
        else if validDMY a b y then some ⟨y, b, a⟩
        else none
  | _ => none

/-- `try_parse_date` of the source, with the day-first flag of the external
parser exposed as a parameter (the source always passes `dayfirst=True`).
The source's last-resort fuzzy parse of the whole text (reached when
`DATE_RE` does not match, or when the matched group is not a real date) is
modelled from the spec as failing: the regular expression already covers
the numeric date shapes, and text without them has no date. -/
def try_parse_date_df (dayfirst : Bool) (s : List Char) : Option PyDate :=
  match dateSearch (pyStrip s) with
  | some g => parseDateGroup dayfirst g
  | none => none

/-- `try_parse_date` as called by the program: day-first resolution. -/
def try_parse_date (s : List Char) : Option PyDate :=
  try_parse_date_df true s

/-- A character of the currency class of `AMOUNT_RE`. -/
def isCurrency (c : Char) : Bool :=
  c == '₹' || c == '$' || c == '£'

/-- A digit or a comma: the repeated class of `AMOUNT_RE`. -/
def isDigitOrComma (c : Char) : Bool :=
  c.isDigit || c == ','

/-- The optional fractional tail of `AMOUNT_RE`: a dot followed greedily by
one or two digits, or nothing. -/
def amtFracPart (s : List Char) : List Char :=
  match s with
  | '.' :: d1 :: rest =>
    if d1.isDigit then
      match rest with
      | d2 :: _ => if d2.isDigit then ['.', d1, d2] else ['.', d1]
      | [] => ['.', d1]
    else []
  | _ => []

/-- The mandatory tail of `AMOUNT_RE` at a position: a nonempty greedy run
of digits and commas, then the optional fractional part. -/
def amtTailMatch (s : List Char) : Option (List Char) :=
  let run := s.takeWhile isDigitOrComma
  if run.isEmpty then none
  else some (run ++ amtFracPart (s.drop run.length))

/-- `AMOUNT_RE` matched at one position: optional minus, optional currency
symbol, optional whitespace character — each greedy — then the tail. -/
def amtMatchAt (s : List Char) : Option (List Char) :=
  firstSome (fun pr1 =>
    firstSome (fun pr2 =>
      firstSome (fun pr3 =>
        match amtTailMatch pr3.2 with
        | some t => some (pr1.1 ++ pr2.1 ++ pr3.1 ++ t)
        | none => none)
        (optTake isPyWS pr2.2))
      (optTake isCurrency pr1.2))
    (optTake (fun c => c == '-') s)

/-- `AMOUNT_RE.search`: leftmost match. -/
def amtSearch : List Char → Option (List Char)
  | [] => none
  | c :: cs =>
    match amtMatchAt (c :: cs) with
    | some g => some g
    | none => amtSearch cs

/-- Python `str.replace(p, rep)` for a one-character pattern:
left-to-right, non-overlapping. -/
def replaceChar (p : Char) (rep : List Char) : List Char → List Char
  | [] => []
  | c :: cs =>
    if c == p then rep ++ replaceChar p rep cs
    else c :: replaceChar p rep cs

/-- Python `str.replace(p1 ++ p2, rep)` for a two-character pattern:
left-to-right, non-overlapping. -/
def replace2 (p1 p2 : Char) (rep : List Char) : List Char → List Char
  | [] => []
  | [c] => [c]
  | c1 :: c2 :: cs =>
    if c1 == p1 && c2 == p2 then rep ++ replace2 p1 p2 rep cs
    else c1 :: replace2 p1 p2 rep (c2 :: cs)

/-- Split at the first dot (used to read the digits of a matched group). -/
def splitOnDot : List Char → List Char × Option (List Char)
  | [] => ([], none)
  | c :: cs =>
    if c == '.' then ([], some cs)
    else
      let r := splitOnDot cs
      (c :: r.1, r.2)

/-- Python `float(...)` on the character set `re.sub(r'[^0-9.-]', '', g)`
leaves in a matched amount group: an optional leading minus, digits with at
most one dot, at least one digit.  Exact as a rational. -/
def parseFloat (cs : List Char) : Option ℚ :=
  let neg := listPrefixOf ['-'] cs
  let body := if neg then cs.drop 1 else cs
  if body.any (fun c => c == '-') then none
  else
    let p := splitOnDot body
    match p.2 with
    | none =>
      if body.isEmpty || !(body.all Char.isDigit) then none
      else
        let n : Int := (digitsToNat body : Int)
        some (mkRat (if neg then -n else n) 1)
    | some fp =>
      if !(p.1.all Char.isDigit) || !(fp.all Char.isDigit) then none
      else if p.1.isEmpty && fp.isEmpty then none
      else if fp.any (fun c => c == '.') then none
      else
        let den : Nat := 10 ^ fp.length
        let n : Int := (digitsToNat p.1 : Int) * (den : Int) + (digitsToNat fp : Int)
        some (mkRat (if neg then -n else n) den)

/-- `try_parse_amount` of the source: normalize accounting notation by the
four textual replacements, search `AMOUNT_RE` first on the text with the
space characters removed and then on the text itself, and convert the
matched group with the non-numeric characters stripped. -/
def try_parse_amount (s : List Char) : Option ℚ :=
  let t1 := replaceChar '(' ['-'] s
  let t2 := replaceChar ')' [] t1
  let t3 := replace2 'C' 'R' [] t2
  let t := replace2 'D' 'r' ['-'] t3
  let m :=
    match amtSearch (t.filter (fun c => !(c == ' '))) with
    | some g => some g
    | none => amtSearch t
  match m with
  | none => none
  | some g => parseFloat (g.filter (fun c => c.isDigit || c == '.' || c == '-'))

/-- The debit-context keyword table of `normalize_amount_sign`. -/
def negKeywords : List (List Char) :=
  [("withdrawal").toList, ("debit").toList, ("paid").toList, ("purchase").toList,
   ("atm").toList, ("payment").toList, ("check").toList]

/-- The credit-context keyword table of `normalize_amount_sign`. -/
def posKeywords : List (List Char) :=
  [("deposit").toList, ("credit").toList, ("interest").toList, ("refund").toList]

/-- `normalize_amount_sign` of the source: lowercase the raw line; a debit
keyword forces the negated absolute value, else a credit keyword forces the
absolute value, else the parsed value is kept; absent amounts stay absent. -/
def normalize_amount_sign (raw : List Char) (amount : Option ℚ) : Option ℚ :=
  match amount with
  | none => none
  | some a =>
    let text := pyLower raw
    if negKeywords.any (fun k => containsSub k text) then some (-|a|)
    else if posKeywords.any (fun k => containsSub k text) then some |a|
    else some a

/-- Dropping a prefix by a predicate never lengthens a list. -/
theorem lenDropWhileLe (p : Char → Bool) (l : List Char) :
    (l.dropWhile p).length ≤ l.length := by
  induction l with
  | nil => simp [List.dropWhile]
  | cons a l ih =>
    rw [List.dropWhile]
    cases p a
    · simp
    · simp only [List.length_cons]
      omega

/-- A pending whitespace run, emitted unchanged when it is shorter than
two characters and as a single space otherwise: the action of the
substitution of two-or-more whitespace runs by a single space on one
maximal run. -/
def flushWsRun (pend : List Char) : List Char :=
  if 2 ≤ pend.length then [' '] else pend

/-- The scanning loop of the substitution of two-or-more whitespace runs
by a single space: `pend` is the maximal whitespace run read so far and
not yet emitted. -/
def collapseWsGo (pend : List Char) : List Char → List Char
  | [] => flushWsRun pend
  | c :: cs =>
    if isPyWS c then collapseWsGo (pend ++ [c]) cs
    else flushWsRun pend ++ c :: collapseWsGo [] cs

/-- The substitution of two-or-more whitespace runs by a single space, as
performed on the raw line to build the Description. -/
def collapseWs (s : List Char) : List Char :=
  collapseWsGo [] s

/-- The scanning loop of `re.split` on runs of two or more whitespace
characters: `pend` is the pending whitespace run, `acc` the current field
reversed.  A run of length at least two ends the field; a single
whitespace character stays inside its field. -/
def splitWs2Go (pend acc : List Char) : List Char → List (List Char)
  | [] =>
    if 2 ≤ pend.length then [acc.reverse, []]
    else [acc.reverse ++ pend]
  | c :: cs =>
    if isPyWS c then splitWs2Go (pend ++ [c]) acc cs
    else if 2 ≤ pend.length then acc.reverse :: splitWs2Go [] [c] cs
    else splitWs2Go [] (c :: (pend.reverse ++ acc)) cs

/-- Field splitting of one raw line (a leading or trailing separator run
produces an empty field, as in Python). -/
def pySplitWs2 (s : List Char) : List (List Char) :=
  splitWs2Go [] [] s

/-- One row as produced by `rows_from_section_lines`: the raw line and its
candidate fields. -/
structure PyRow where
  raw : List Char
  parts : List (List Char)
deriving DecidableEq, Repr

/-- `rows_from_section_lines` of the source. -/
def rows_from_section_lines (lines : List (List Char)) : List PyRow :=
  lines.map (fun l => ⟨l, pySplitWs2 l⟩)

/-- The row built from a single raw line. -/
def mkRow (l : List Char) : PyRow :=
  ⟨l, pySplitWs2 l⟩

/-- The field-scanning loop of `infer_row_columns`: the first field that
yields a date and the first field that yields an amount, scanned in order
(`if not date` on dates, `if amount is None` on amounts). -/
def scanFields (parts : List (List Char)) : Option PyDate × Option ℚ :=
  parts.foldl
    (fun st p =>
      (match st.1 with
       | none => try_parse_date p
       | some d => some d,
       match st.2 with
       | none => try_parse_amount p
       | some a => some a))
    (none, none)

/-- The columns inferred from one row, before the section and source file
are attached. -/
structure RowCols where
  Date : Option PyDate
  Description : List Char
  Amount : Option ℚ
  Raw : List Char
deriving DecidableEq, Repr

/-- `infer_row_columns` of the source.  Note the Python truthiness of the
two fallbacks: `date or try_parse_date(raw)` re-parses only when no field
yielded a date, but `amount or try_parse_amount(raw)` re-parses the whole
raw line both when no field yielded an amount and when the first amount
found was exactly zero (a falsy float). -/
def infer_row_columns (row : PyRow) : RowCols :=
  let st := scanFields row.parts
  let date :=
    match st.1 with
    | some d => some d
    | none => try_parse_date row.raw
  let amount :=
    match st.2 with
    | some v => if v == 0 then try_parse_amount row.raw else some v
    | none => try_parse_amount row.raw
  { Date := date
    Description := collapseWs row.raw
    Amount := normalize_amount_sign row.raw amount
    Raw := row.raw }

/-- `SECTION_HEADERS` of the source, in order. -/
def SECTION_HEADERS : List (List Char) :=
  [("Account Summary").toList, ("Deposits & Other Credits").toList, ("Deposits").toList,
   ("ATM Withdrawals & Debits").toList, ("ATM Withdrawals").toList,
   ("Withdrawals & Other Debits").toList, ("Checks Paid").toList, ("Checks").toList,
   ("Payments").toList, ("Transactions").toList]

/-- The first header of `SECTION_HEADERS` contained (case-insensitively) in
a line, if any. -/
def headerOf (line : List Char) : Option (List Char) :=
  SECTION_HEADERS.find? (fun h => containsSub (pyLower h) (pyLower line))

/-- The label of lines seen before any header. -/
def uncategorizedLabel : List Char :=
  ("Uncategorized").toList

/-- Python `dict.setdefault(key, []).append(v)` on an insertion-ordered
association list: append to the entry of the key, or add the key at the
end. -/
def appendAt (m : List (List Char × List (List Char))) (k : List Char) (v : List Char) :
    List (List Char × List (List Char)) :=
  match m with
  | [] => [(k, [v])]
  | (k', vs) :: rest =>
    if k' = k then (k', vs ++ [v]) :: rest
    else (k', vs) :: appendAt rest k v

/-- One step of the `detect_sections` loop: update the current section from
the line, then bucket the line under it. -/
def detectStep (st : List (List Char × List (List Char)) × List Char) (line : List Char) :
    List (List Char × List (List Char)) × List Char :=
  let cur := (headerOf line).getD st.2
  (appendAt st.1 cur line, cur)

/-- `detect_sections` of the source: an insertion-ordered mapping from
section label to the lines bucketed under it. -/
def detect_sections (lines : List (List Char)) : List (List Char × List (List Char)) :=
  (lines.foldl detectStep ([], uncategorizedLabel)).1

/-- The `skip_keywords` noise table of `build_master_rows`. -/
def skip_keywords : List (List Char) :=
  [("date").toList, ("description").toList, ("debit").toList, ("credit").toList,
   ("balance").toList, ("invoice").toList, ("amount").toList, ("customer").toList,
   ("check").toList, ("paid").toList, ("account").toList, ("statement").toList,
   ("summary").toList, ("opening").toList, ("closing").toList]

/-- A noise keyword occurs in the lowercased raw line. -/
def noiseHit (raw : List Char) : Bool :=
  skip_keywords.any (fun k => containsSub k (pyLower raw))

/-- A finished transaction record of the master table. -/
structure Entry where
  Date : Option PyDate
  Description : List Char
  Amount : Option ℚ
  Raw : List Char
  Section : List Char
  SourceFile : List Char
deriving DecidableEq, Repr

/-- `build_master_rows` of the source: per section (in insertion order) and
per line (in section order), infer the columns and drop the row exactly
when it has no date, no amount, and a noise keyword in its lowercased raw
line. -/
def build_master_rows (secs : List (List Char × List (List Char))) (src : List Char) :
    List Entry :=
  secs.flatMap (fun p =>
    (rows_from_section_lines p.2).filterMap (fun r =>
      let e := infer_row_columns r
      if e.Date.isNone && e.Amount.isNone && noiseHit e.Raw then none
      else some ⟨e.Date, e.Description, e.Amount, e.Raw, p.1, src⟩))

/-- A page as seen through the extraction collaborator: the result of
`page.extract_table()` (a grid of optional cell texts, `none` when no table
is found) and of `page.extract_text()`. -/
structure Page where
  table : Option (List (List (Option (List Char))))
  text : Option (List Char)

/-- `(str(c) if c else "").strip()` applied to one table cell. -/
def cellText (c : Option (List Char)) : List Char :=
  pyStrip (c.getD [])

/-- `sep.join(items)`. -/
def joinSep (sep : List Char) : List (List Char) → List Char
  | [] => []
  | [x] => x
  | x :: y :: rest => x ++ sep ++ joinSep sep (y :: rest)

/-- One table row joined with the double-space separator. -/
def tableRowLine (row : List (Option (List Char))) : List Char :=
  joinSep [' ', ' '] (row.map cellText)

/-- Split extracted page text into lines. -/
def splitOnNl : List Char → List (List Char)
  | [] => [[]]
  | c :: cs =>
    let r := splitOnNl cs
    if c == '\n' then [] :: r
    else
      match r with
      | h :: t => (c :: h) :: t
      | [] => [[c]]

/-- The nonempty stripped lines of extracted page text. -/
def textItems (t : Option (List Char)) : List (List Char) :=
  match t with
  | none => []
  | some txt =>
    (splitOnNl txt).filterMap (fun l =>
      let ls := pyStrip l
      if ls.isEmpty then none else some ls)

/-- Python string ordering: lexicographic on code points, a proper prefix
first. -/
def lexLe : List Char → List Char → Bool
  | [], _ => true
  | _ :: _, [] => false
  | a :: as, b :: bs => a < b || (a == b && lexLe as bs)

/-- Insertion into a sorted list. -/
def insertLex (x : List Char) : List (List Char) → List (List Char)
  | [] => [x]
  | y :: ys => if lexLe x y then x :: y :: ys else y :: insertLex x ys

/-- Python `sorted(...)` on strings. -/
def sortLex (l : List (List Char)) : List (List Char) :=
  l.foldr insertLex []

/-- Deduplication keeping first occurrences, with an explicit seen set:
the behaviour of `dict.fromkeys` and, composed with `sortLex`, of
`sorted(set(...))`. -/
def dedupSeen (seen : List (List Char)) : List (List Char) → List (List Char)
  | [] => []
  | a :: as =>
    if a ∈ seen then dedupSeen seen as
    else a :: dedupSeen (a :: seen) as

/-- Order-preserving deduplication (`list(dict.fromkeys(...))`). -/
def dedupList (l : List (List Char)) : List (List Char) :=
  dedupSeen [] l

/-- The per-page loop of `extract_text_rows_from_pdf`: take the table if
one is found and nonempty, else the text lines; deduplicate with a set and
emit in sorted order. -/
def pageUniqueLines (p : Page) : List (List Char) :=
  let items : List (List Char) :=
    match p.table with
    | some rows =>
      if rows.isEmpty then textItems p.text
      else
        rows.filterMap (fun r =>
          let j := pyStrip (tableRowLine r)
          if j.isEmpty then none else some j)
    | none => textItems p.text
  sortLex (dedupList items)

/-- `extract_text_rows_from_pdf` of the source.  Opening and reading the
document is the collaborator that can raise: its outcome is the `Except`
argument.  The optional OCR collaborator's final line list is the `Option`
argument (`none` when OCR is unavailable or itself fails).  On an
exception, or when the deduplicated line list is empty (Python `or`), the
OCR result or the empty list is returned; the function never fails. -/
def extract_text_rows_from_pdf (pdfResult : Except Unit (List Page))
    (ocr : Option (List (List Char))) : List (List Char) :=
  match pdfResult with
  | Except.error _ => ocr.getD []
  | Except.ok pages =>
    let d := dedupList ((pages.map pageUniqueLines).flatten)
    if d.isEmpty then ocr.getD [] else d

/-- One input file of the main loop: its name and the outcomes of its two
extraction collaborators. -/
structure FileInput where
  name : List Char
  pdfResult : Except Unit (List Page)
  ocr : Option (List (List Char))

/-- The extracted line sequence of one file. -/
def extractOf (f : FileInput) : List (List Char) :=
  extract_text_rows_from_pdf f.pdfResult f.ocr

/-- The transaction records of one file: extraction, section detection,
parsing and filtering, as in the main loop. -/
def processFile (f : FileInput) : List Entry :=
  build_master_rows (detect_sections (extractOf f)) f.name

/-- The master table of the main loop: the per-file tables are appended in
file order, the empty ones are not appended, and the rest are concatenated. -/
def masterOf (files : List FileInput) : List Entry :=
  ((files.map processFile).filter (fun d => !d.isEmpty)).flatten

/-- One row of the Summary sheet. -/
structure SummaryRow where
  file : List Char
  rows : Nat
  status : List Char
deriving DecidableEq, Repr

/-- The Summary sheet: one row per processed file, always appended. -/
def summaryOf (files : List FileInput) : List SummaryRow :=
  files.map (fun f => ⟨f.name, (processFile f).length, ("OK").toList⟩)

/-- Spec-side description of section tagging (following the spec's words):
each line is tagged with the most recently matched header — the first
matching header of the fixed ordered list wins per line, a line matching a
header is tagged with that new header itself, and lines before any header
carry the starting label. -/
def tagsFrom (cur : List Char) : List (List Char) → List (List Char × List Char)
  | [] => []
  | l :: ls =>
    let c := (headerOf l).getD cur
    (c, l) :: tagsFrom c ls

/-- The lines carrying a given tag, in order. -/
def valuesOf (k : List Char) (ps : List (List Char × List Char)) : List (List Char) :=
  (ps.filter (fun p => decide (p.1 = k))).map (fun p => p.2)

/-- The tags in order of first appearance. -/
def firstKeys (ps : List (List Char × List Char)) : List (List Char) :=
  dedupList (ps.map (fun p => p.1))

/-- Spec-side description of the output mapping (following the spec's
words): keys in first-seen order, each with its ordered line sequence. -/
def specGroup (ps : List (List Char × List Char)) : List (List Char × List (List Char)) :=
  (firstKeys ps).map (fun k => (k, valuesOf k ps))

/-- Spec-side description of `detect_sections`. -/
def specSections (lines : List (List Char)) : List (List Char × List (List Char)) :=
  specGroup (tagsFrom uncategorizedLabel lines)

/-- The scanning loop of the spec-side whitespace normalization: `pend`
records whether a whitespace run is being read; every run, of any length,
is emitted as one space. -/
def specCollapseGo (pend : Bool) : List Char → List Char
  | [] => if pend then [' '] else []
  | c :: cs =>
    if isPyWS c then specCollapseGo true cs
    else (if pend then [' '] else []) ++ c :: specCollapseGo false cs

/-- Spec-side description of the Description normalization (following the
spec's words): every internal run of whitespace — of any length — is
collapsed to a single space. -/
def specCollapseWS (s : List Char) : List Char :=
  specCollapseGo false s

/-- The noise-filter discard condition on one raw line: the inferred record
has no date and no amount and the lowercased line has a noise keyword. -/
def discardLine (l : List Char) : Bool :=
  (infer_row_columns (mkRow l)).Date.isNone &&
    (infer_row_columns (mkRow l)).Amount.isNone && noiseHit l

/-- A raw line survives the noise filter. -/
def keepLine (l : List Char) : Bool :=
  !discardLine l

/-- The finished entry built from one raw line under a section and source. -/
def finalEntry (sec src l : List Char) : Entry :=
  let e := infer_row_columns (mkRow l)
  ⟨e.Date, e.Description, e.Amount, e.Raw, sec, src⟩

/-- The synthetic single-page table of the end-to-end example: a header row
and one data row. -/
def c1_table : List (List (Option (List Char))) :=
  [[some (("Date").toList), some (("Desc").toList), some (("Amount").toList)],
   [some (("01/02/2023").toList), some (("Check 101").toList), some (("-200.00").toList)]]

/-- A file whose single page extracts the synthetic table. -/
def c1_file : FileInput :=
  ⟨("table.pdf").toList, Except.ok [⟨some c1_table, none⟩], none⟩

/-- The record the pipeline produces for the data row of the synthetic
table: the leading date token `01/02/2023` is also the first field whose
text matches the amount pattern — its prefix `01` parses as `1.00` — and
the `check` keyword then forces the sign negative, so the Amount is
`-1.00` rather than `-200.00`. -/
def c1_entry : Entry :=
  ⟨some ⟨2023, 2, 1⟩, ("01/02/2023 Check 101 -200.00").toList, some ((-1 : ℚ)),
   ("01/02/2023  Check 101  -200.00").toList, ("Uncategorized").toList, ("table.pdf").toList⟩

/-- A file of five one-line text pages that alternates between sections:
section grouping then reorders the retained records relative to the
extracted line sequence. -/
def c7_file : FileInput :=
  ⟨("f.pdf").toList, Except.ok
    [⟨none, some (("Deposits").toList)⟩,
     ⟨none, some (("1.00 x").toList)⟩,
     ⟨none, some (("Payments").toList)⟩,
     ⟨none, some (("2.00 y").toList)⟩,
     ⟨none, some (("Deposits 3.00 z").toList)⟩], none⟩

/-- A record with a plain raw line, used to witness the Description
invariant on the master output. -/
def c9_entry : Entry :=
  ⟨none, ("ab").toList, none, ("ab").toList, ("S").toList, ("f.pdf").toList⟩

/-- The raw-line projections of `infer_row_columns` and `finalEntry` are
the identity. -/
theorem infer_Raw (r : PyRow) : (infer_row_columns r).Raw = r.raw :=
  rfl

/-- A `filterMap` that either discards or keeps a mapped value is the
`map` of the `filter`. -/
theorem filterMap_discard {α β : Type} (c : α → Bool) (f : α → β) (l : List α) :
    l.filterMap (fun a => if c a then none else some (f a)) =
      (l.filter (fun a => !c a)).map f := by
  induction l with
  | nil => rfl
  | cons a as ih =>
    cases h : c a
    · simp [List.filterMap_cons, List.filter_cons, h, ih]
    · simp [List.filterMap_cons, List.filter_cons, h, ih]

/-- Per-section shape of the `build_master_rows` loop: the retained lines
in order, each mapped to its finished entry. -/
theorem section_filterMap_eq (sec src : List Char) (lns : List (List Char)) :
    (rows_from_section_lines lns).filterMap (fun r =>
      let e := infer_row_columns r
      if e.Date.isNone && e.Amount.isNone && noiseHit e.Raw then none
      else some ⟨e.Date, e.Description, e.Amount, e.Raw, sec, src⟩) =
    (lns.filter keepLine).map (finalEntry sec src) := by
  unfold rows_from_section_lines
  rw [List.filterMap_map]
  have hfun :
      ((fun r =>
        let e := infer_row_columns r
        if e.Date.isNone && e.Amount.isNone && noiseHit e.Raw then none
        else some (⟨e.Date, e.Description, e.Amount, e.Raw, sec, src⟩ : Entry)) ∘
          (fun l => (⟨l, pySplitWs2 l⟩ : PyRow))) =
        (fun l => if discardLine l then none else some (finalEntry sec src l)) :=
    funext (fun l => rfl)
  rw [hfun]
  exact filterMap_discard discardLine (finalEntry sec src) lns

/-- The master-row builder, characterized: per section in insertion order,
the lines that survive the noise filter, in line order, mapped to their
entries.  A line is dropped exactly when its record has no date, no
amount, and a noise keyword. -/
theorem build_master_rows_eq (secs : List (List Char × List (List Char))) (src : List Char) :
    build_master_rows secs src =
      secs.flatMap (fun p => (p.2.filter keepLine).map (finalEntry p.1 src)) := by
  unfold build_master_rows
  induction secs with
  | nil => rfl
  | cons p ps ih =>
    simp only [List.flatMap_cons]
    rw [section_filterMap_eq p.1 src p.2, ih]

/-- Claim C3: a parsed record is discarded from the master output exactly
when both its Date and its Amount are absent and its lowercased raw line
contains a noise keyword; a record with a date or an amount present is
always kept. -/
theorem claim_C3 :
    (∀ secs src, build_master_rows secs src =
      secs.flatMap (fun p => (p.2.filter keepLine).map (finalEntry p.1 src))) ∧
    (∀ l : List Char,
      (infer_row_columns (mkRow l)).Date ≠ none ∨ (infer_row_columns (mkRow l)).Amount ≠ none →
      keepLine l = true) := by
  constructor
  · exact build_master_rows_eq
  · intro l h
    unfold keepLine discardLine
    rcases h with h | h
    · cases hD : (infer_row_columns (mkRow l)).Date
      · exact absurd hD h
      · simp [hD]
    · cases hA : (infer_row_columns (mkRow l)).Amount
      · exact absurd hA h
      · simp [hA]

/-- Witness for C3 at a concrete line with an amount present. -/
theorem claim_C3_witness : keepLine (("Deposit 5.00").toList) = true :=
  claim_C3.2 (("Deposit 5.00").toList) (Or.inr (by decide))

/-- Claim C1, counterexample: the synthetic single-page table does not
yield a master table whose single record has Amount `-200.00`. -/
theorem claim_C1_counterexample :
    ¬ ((masterOf [c1_file]).map (fun e => e.Amount) = [some ((-200 : ℚ))]) := by
  decide

/-- Claim C1, amended: the full pipeline on the synthetic single-page
table yields exactly one record — the header row is discarded by the
noise-keyword rule and the data row is retained — but its Amount is
`-1.00`, not `-200.00`: the first field `01/02/2023` already matches the
amount pattern with prefix `01`, and the `check` keyword negates it. -/
theorem claim_C1 : masterOf [c1_file] = [c1_entry] := by
  decide

/-- Claim C2, counterexample: `500.00 Dr` does not parse to `-500.00`;
the `Dr` to minus substitution yields a trailing minus, which the amount
pattern (leading minus only) never captures. -/
theorem claim_C2_counterexample :
    ¬ (try_parse_amount (("500.00 Dr").toList) = some ((-500 : ℚ))) := by
  decide

/-- Claim C2, amended: `(2,500.00)` parses to `-2500.00` and `500.00 CR`
parses to `500.00` as claimed, but `500.00 Dr` parses to `500.00` — the
substituted minus sign lands after the digits and is ignored. -/
theorem claim_C2 :
    try_parse_amount (("(2,500.00)").toList) = some ((-2500 : ℚ)) ∧
    try_parse_amount (("500.00 CR").toList) = some ((500 : ℚ)) ∧
    try_parse_amount (("500.00 Dr").toList) = some ((500 : ℚ)) := by
  exact ⟨by decide, by decide, by decide⟩

/-- Claim C4: the sign normalization forces the negated absolute value in
the presence of a debit keyword (checked first, hence taking precedence),
the absolute value in the presence of a credit keyword, and keeps the
parsed sign otherwise; concretely, `ATM Withdrawal 500.00` ends up with
Amount `-500.00`. -/
theorem claim_C4 (raw : List Char) (a : ℚ) :
    (negKeywords.any (fun k => containsSub k (pyLower raw)) = true →
      normalize_amount_sign raw (some a) = some (-|a|)) ∧
    (negKeywords.any (fun k => containsSub k (pyLower raw)) = false →
      posKeywords.any (fun k => containsSub k (pyLower raw)) = true →
      normalize_amount_sign raw (some a) = some |a|) ∧
    (negKeywords.any (fun k => containsSub k (pyLower raw)) = false →
      posKeywords.any (fun k => containsSub k (pyLower raw)) = false →
      normalize_amount_sign raw (some a) = some a) ∧
    (infer_row_columns (mkRow (("ATM Withdrawal 500.00").toList))).Amount = some ((-500 : ℚ)) := by
  refine ⟨fun h => ?_, fun h1 h2 => ?_, fun h1 h2 => ?_, by decide⟩
  · simp [normalize_amount_sign, h]
  · simp [normalize_amount_sign, h1, h2]
  · simp [normalize_amount_sign, h1, h2]

/-- Witness for C4 at a concrete debit-keyword line. -/
theorem claim_C4_witness :
    normalize_amount_sign (("ATM fee").toList) (some ((3 : ℚ))) = some (-|(3 : ℚ)|) :=
  (claim_C4 (("ATM fee").toList) 3).1 (by decide)

/-- Claim C5: `03/04/2023` resolves with day-first ambiguity resolution to
April 3, 2023, and `2023-04-03` resolves to April 3, 2023 for either value
of the day-first flag. -/
theorem claim_C5 :
    try_parse_date (("03/04/2023").toList) = some ⟨2023, 4, 3⟩ ∧
    ∀ df : Bool, try_parse_date_df df (("2023-04-03").toList) = some ⟨2023, 4, 3⟩ := by
  exact ⟨by decide, by decide⟩

/-- Concatenating only the nonempty members changes nothing. -/
theorem flatten_filter_ne_nil {α : Type} (ls : List (List α)) :
    ((ls.filter (fun d => !d.isEmpty)).flatten : List α) = ls.flatten := by
  induction ls with
  | nil => rfl
  | cons a as ih =>
    cases a with
    | nil => simpa using ih
    | cons x xs => simp [List.filter_cons, ih]

/-- The master table is the concatenation of the per-file record lists in
file-processing order. -/
theorem masterOf_eq (files : List FileInput) :
    masterOf files = files.flatMap processFile := by
  unfold masterOf
  rw [flatten_filter_ne_nil]
  simp [List.flatMap_def]

/-- Raw-line projection of the master rows: per section, the retained
lines in line order. -/
theorem build_master_rows_raw (secs : List (List Char × List (List Char))) (src : List Char) :
    (build_master_rows secs src).map (fun e => e.Raw) =
      secs.flatMap (fun p => p.2.filter keepLine) := by
  rw [build_master_rows_eq]
  simp only [List.map_flatMap, List.map_map]
  have h2 : ∀ p : List Char × List (List Char),
      List.map ((fun e : Entry => e.Raw) ∘ finalEntry p.1 src) (List.filter keepLine p.2) =
        List.filter keepLine p.2 := by
    intro p
    rw [show ((fun e : Entry => e.Raw) ∘ finalEntry p.1 src) = id from funext fun l => rfl]
    exact List.map_id _
  simp only [h2]

/-- Claim C7, counterexample: for the five-page file alternating between
sections, the master table's raw lines are not the retained extracted
lines in within-file line order — section grouping reorders them. -/
theorem claim_C7_counterexample :
    ¬ ((masterOf [c7_file]).map (fun e => e.Raw) =
      [c7_file].flatMap (fun f => (extractOf f).filter keepLine)) := by
  decide

/-- Claim C7, amended: the master table concatenates the per-file records
in file-processing order, and within each file the records follow
first-seen-section order and then line order within each section (not the
flat extracted line order). -/
theorem claim_C7 :
    (∀ files : List FileInput, masterOf files = files.flatMap processFile) ∧
    (∀ secs src, (build_master_rows secs src).map (fun e => e.Raw) =
      secs.flatMap (fun p => p.2.filter keepLine)) :=
  ⟨masterOf_eq, build_master_rows_raw⟩

/-- Claim C8: a failed extraction, and an extraction whose deduplicated
line list is empty, fall back to the OCR collaborator's lines; when OCR is
unavailable or failed the result is the empty line sequence; the embedded
extractor is a total function (failures never escape), and the Summary
sheet has exactly one row per processed file. -/
theorem claim_C8 (pages : List Page) (ocr : Option (List (List Char)))
    (h : dedupList ((pages.map pageUniqueLines).flatten) = []) :
    extract_text_rows_from_pdf (Except.ok pages) ocr = ocr.getD [] ∧
    extract_text_rows_from_pdf (Except.error ()) ocr = ocr.getD [] ∧
    extract_text_rows_from_pdf (Except.error ()) none = [] ∧
    ∀ files : List FileInput, (summaryOf files).length = files.length := by
  refine ⟨?_, rfl, rfl, fun files => by simp [summaryOf]⟩
  have hok : extract_text_rows_from_pdf (Except.ok pages) ocr =
      (if (dedupList ((pages.map pageUniqueLines).flatten)).isEmpty then ocr.getD []
       else dedupList ((pages.map pageUniqueLines).flatten)) := rfl
  rw [hok, h]
  rfl

/-- Witness for C8: a file with no pages falls back to the OCR lines. -/
theorem claim_C8_witness :
    extract_text_rows_from_pdf (Except.ok []) (some [("ocr").toList]) = [("ocr").toList] :=
  (claim_C8 [] (some [("ocr").toList]) (by decide)).1

/-- Claim C9, counterexample: the Description of the record built from the
raw line `a<tab>b` is not the line with every whitespace run collapsed to a
single space — a run of a single tab is left unchanged by the
two-or-more-characters substitution. -/
theorem claim_C9_counterexample :
    ¬ ((infer_row_columns (mkRow (("a\tb").toList))).Description =
      specCollapseWS (("a\tb").toList)) := by
  decide

/-- Claim C9, amended: every record's Description is the raw line with
every run of two or more whitespace characters collapsed to a single space
(single whitespace characters are preserved as they are), and this holds
for every record of the master output. -/
theorem claim_C9 :
    (∀ r : PyRow, (infer_row_columns r).Description = collapseWs r.raw) ∧
    (∀ secs src, ∀ e ∈ build_master_rows secs src, e.Description = collapseWs e.Raw) := by
  constructor
  · intro r
    rfl
  · intro secs src e he
    rw [build_master_rows_eq] at he
    simp only [List.mem_flatMap, List.mem_map, List.mem_filter] at he
    obtain ⟨p, _, l, _, rfl⟩ := he
    rfl

/-- Witness for C9 on a concrete one-line master output. -/
theorem claim_C9_witness : c9_entry.Description = collapseWs c9_entry.Raw :=
  claim_C9.2 [(("S").toList, [("ab").toList])] (("f.pdf").toList) c9_entry (by decide)

/-- Claim C10, counterexample: for the line `0.00  Fee  5.00`, whose first
amount-bearing field is `0.00` and which contains another amount, the
final Amount is `0.00` — the full-line re-parse is leftmost and finds the
same zero again — refuting "rather than being 0". -/
theorem claim_C10_counterexample :
    (infer_row_columns (mkRow (("0.00  Fee  5.00").toList))).Amount = some ((0 : ℚ)) := by
  decide

/-- Claim C10, amended: the full-line amount re-parse is triggered not
only when no field yields an amount but also when the first matching field
parses to exactly zero; the final Amount is then the sign-normalized
result of re-parsing the whole raw line (which, being leftmost, can find
the same zero again). -/
theorem claim_C10 (r : PyRow) (h : (scanFields r.parts).2 = some 0) :
    (infer_row_columns r).Amount =
      normalize_amount_sign r.raw (try_parse_amount r.raw) := by
  have hamt : (infer_row_columns r).Amount =
      normalize_amount_sign r.raw
        (match (scanFields r.parts).2 with
         | some v => if v == 0 then try_parse_amount r.raw else some v
         | none => try_parse_amount r.raw) := rfl
  rw [hamt, h]
  simp

/-- Witness for C10 at a concrete zero-amount line. -/
theorem claim_C10_witness :
    (infer_row_columns (mkRow (("0.00 zz").toList))).Amount =
      normalize_amount_sign (mkRow (("0.00 zz").toList)).raw
        (try_parse_amount (mkRow (("0.00 zz").toList)).raw) :=
  claim_C10 (mkRow (("0.00 zz").toList)) (by decide)

/-- Membership in the seen-set deduplication. -/
theorem mem_dedupSeen (l : List (List Char)) :
    ∀ (seen : List (List Char)) (x : List Char),
      x ∈ dedupSeen seen l ↔ x ∈ l ∧ x ∉ seen := by
  induction l with
  | nil => simp [dedupSeen]
  | cons a l ih =>
    intro seen x
    by_cases ha : a ∈ seen
    · rw [dedupSeen, if_pos ha, ih]
      simp only [List.mem_cons]
      constructor
      · rintro ⟨h1, h2⟩
        exact ⟨Or.inr h1, h2⟩
      · rintro ⟨h1 | h1, h2⟩
        · exact absurd (h1 ▸ ha) h2
        · exact ⟨h1, h2⟩
    · rw [dedupSeen, if_neg ha]
      simp only [List.mem_cons, ih]
      constructor
      · rintro (h | ⟨h1, h2⟩)
        · exact ⟨Or.inl h, h ▸ ha⟩
        · exact ⟨Or.inr h1, fun hx => h2 (Or.inr hx)⟩
      · rintro ⟨h1 | h1, h2⟩
        · exact Or.inl h1
        · by_cases hxa : x = a
          · exact Or.inl hxa
          · exact Or.inr ⟨h1, by simp [List.mem_cons, hxa, h2]⟩

/-- The seen-set deduplication yields no duplicates. -/
theorem nodup_dedupSeen (l : List (List Char)) :
    ∀ seen : List (List Char), (dedupSeen seen l).Nodup := by
  induction l with
  | nil => intro seen; simp [dedupSeen]
  | cons a l ih =>
    intro seen
    by_cases ha : a ∈ seen
    · rw [dedupSeen, if_pos ha]
      exact ih seen
    · rw [dedupSeen, if_neg ha]
      refine List.nodup_cons.mpr ⟨?_, ih (a :: seen)⟩
      intro hmem
      exact ((mem_dedupSeen l (a :: seen) a).mp hmem).2 (List.mem_cons_self a seen)

/-- Appending one element to the input of the seen-set deduplication. -/
theorem dedupSeen_append (l : List (List Char)) :
    ∀ (seen : List (List Char)) (x : List Char),
      dedupSeen seen (l ++ [x]) =
        dedupSeen seen l ++ (if x ∈ seen ∨ x ∈ l then [] else [x]) := by
  induction l with
  | nil =>
    intro seen x
    by_cases hx : x ∈ seen
    · simp [dedupSeen, hx]
    · simp [dedupSeen, hx]
  | cons a l ih =>
    intro seen x
    by_cases ha : a ∈ seen
    · rw [List.cons_append, dedupSeen, if_pos ha, ih, dedupSeen, if_pos ha]
      have hiff : (x ∈ seen ∨ x ∈ a :: l) ↔ (x ∈ seen ∨ x ∈ l) := by
        simp only [List.mem_cons]
        constructor
        · rintro (h | h | h)
          · exact Or.inl h
          · exact Or.inl (h ▸ ha)
          · exact Or.inr h
        · rintro (h | h)
          · exact Or.inl h
          · exact Or.inr (Or.inr h)
      rw [if_congr hiff rfl rfl]
    · rw [List.cons_append, dedupSeen, if_neg ha, ih, dedupSeen, if_neg ha, List.cons_append]
      have hiff : (x ∈ a :: seen ∨ x ∈ l) ↔ (x ∈ seen ∨ x ∈ a :: l) := by
        simp only [List.mem_cons]
        tauto
      rw [if_congr hiff rfl rfl]

/-- `appendAt` on a key that is not present adds it at the end. -/
theorem appendAt_not_mem (m : List (List Char × List (List Char))) :
    ∀ (k : List Char) (v : List Char), k ∉ m.map Prod.fst →
      appendAt m k v = m ++ [(k, [v])] := by
  induction m with
  | nil => intro k v _; rfl
  | cons p m ih =>
    intro k v h
    have hne : ¬ p.1 = k := by
      intro he
      exact h (List.mem_map.mpr ⟨p, List.mem_cons_self p m, he⟩)
    obtain ⟨k', vs⟩ := p
    rw [appendAt, if_neg hne, ih k v (fun hm => h (List.mem_cons_of_mem _ hm)), List.cons_append]

/-- `appendAt` on a mapped key list with no duplicates updates exactly the
entry of the key. -/
theorem appendAt_map_mem (ks : List (List Char)) :
    ∀ (f : List Char → List (List Char)) (k : List Char) (v : List Char),
      ks.Nodup → k ∈ ks →
      appendAt (ks.map (fun k' => (k', f k'))) k v =
        ks.map (fun k' => (k', f k' ++ if k' = k then [v] else [])) := by
  induction ks with
  | nil => intro f k v _ h; exact absurd h (List.not_mem_nil k)
  | cons a ks ih =>
    intro f k v hnd hk
    rw [List.map_cons, List.map_cons, appendAt]
    by_cases hak : a = k
    · rw [if_pos hak, if_pos hak]
      have hknotin : k ∉ ks := hak ▸ (List.nodup_cons.mp hnd).1
      have : ks.map (fun k' => (k', f k' ++ if k' = k then [v] else [])) =
          ks.map (fun k' => (k', f k')) := by
        apply List.map_congr_left
        intro k' hk'
        have : ¬ k' = k := fun he => hknotin (he ▸ hk')
        simp [this]
      rw [this]
    · rw [if_neg hak, if_neg hak, List.append_nil]
      have hkks : k ∈ ks := by
        rcases List.mem_cons.mp hk with h | h
        · exact absurd h.symm hak
        · exact h
      rw [ih f k v (List.nodup_cons.mp hnd).2 hkks]

/-- Appending one tagged line to the input of `valuesOf`. -/
theorem valuesOf_append (k : List Char) (ps : List (List Char × List Char))
    (q : List Char × List Char) :
    valuesOf k (ps ++ [q]) =
      valuesOf k ps ++ (if q.1 = k then [q.2] else []) := by
  unfold valuesOf
  rw [List.filter_append, List.map_append]
  by_cases h : q.1 = k
  · simp [h]
  · simp [h]

/-- A key absent from the tags has no values. -/
theorem valuesOf_not_mem (k : List Char) (ps : List (List Char × List Char))
    (h : k ∉ ps.map Prod.fst) : valuesOf k ps = [] := by
  unfold valuesOf
  have : ps.filter (fun p => decide (p.1 = k)) = [] := by
    rw [List.filter_eq_nil_iff]
    intro p hp
    simp only [decide_eq_true_eq]
    intro he
    exact h (List.mem_map.mpr ⟨p, hp, he⟩)
  rw [this]
  rfl

/-- Appending one tagged line to the input of `firstKeys`. -/
theorem firstKeys_append (ps : List (List Char × List Char)) (q : List Char × List Char) :
    firstKeys (ps ++ [q]) =
      firstKeys ps ++ (if q.1 ∈ ps.map Prod.fst then [] else [q.1]) := by
  unfold firstKeys dedupList
  rw [List.map_append, List.map_cons, List.map_nil, dedupSeen_append]
  have hiff : (q.1 ∈ ([] : List (List Char)) ∨ q.1 ∈ ps.map Prod.fst) ↔
      q.1 ∈ ps.map Prod.fst := by
    simp
  rw [if_congr hiff rfl rfl]

/-- The keys of the spec-side grouping are the first-seen tags. -/
theorem keys_specGroup (ps : List (List Char × List Char)) :
    (specGroup ps).map Prod.fst = firstKeys ps := by
  unfold specGroup
  rw [List.map_map]
  exact List.map_id _

/-- Appending one tagged line to the spec-side grouping is `appendAt`. -/
theorem specGroup_append (ps : List (List Char × List Char)) (q : List Char × List Char) :
    specGroup (ps ++ [q]) = appendAt (specGroup ps) q.1 q.2 := by
  obtain ⟨k, v⟩ := q
  by_cases hk : k ∈ ps.map Prod.fst
  · have hk' : k ∈ firstKeys ps := by
      unfold firstKeys dedupList
      rw [mem_dedupSeen]
      exact ⟨hk, List.not_mem_nil k⟩
    unfold specGroup
    rw [firstKeys_append, if_pos hk, List.append_nil,
      appendAt_map_mem (firstKeys ps) (fun k' => valuesOf k' ps) k v
        (by unfold firstKeys dedupList; exact nodup_dedupSeen _ _) hk']
    apply List.map_congr_left
    intro k' _
    rw [valuesOf_append]
    by_cases he : k' = k
    · simp [he]
    · have : ¬ k = k' := fun h => he h.symm
      simp [he, this]
  · have hknotin : k ∉ (specGroup ps).map Prod.fst := by
      rw [keys_specGroup]
      unfold firstKeys dedupList
      rw [mem_dedupSeen]
      intro hmem
      exact hk hmem.1
    rw [appendAt_not_mem (specGroup ps) k v hknotin]
    unfold specGroup
    rw [firstKeys_append, if_neg hk, List.map_append, List.map_cons, List.map_nil]
    have h1 : (firstKeys ps).map (fun k' => (k', valuesOf k' (ps ++ [(k, v)]))) =
        (firstKeys ps).map (fun k' => (k', valuesOf k' ps)) := by
      apply List.map_congr_left
      intro k' hk'
      have hk'mem : k' ∈ ps.map Prod.fst := by
        have := (mem_dedupSeen (ps.map Prod.fst) [] k').mp hk'
        exact this.1
      have : ¬ (k, v).1 = k' := by
        intro he
        have he' : k = k' := he
        rw [he'] at hk
        exact hk hk'mem
      rw [valuesOf_append, if_neg this, List.append_nil]
    have h2 : valuesOf k (ps ++ [(k, v)]) = [v] := by
      rw [valuesOf_append, valuesOf_not_mem k ps hk, if_pos rfl, List.nil_append]
    rw [h1, h2]

/-- The insertion-ordered dictionary fold is the spec-side grouping. -/
theorem foldl_appendAt_eq (ps : List (List Char × List Char)) :
    List.foldl (fun m q => appendAt m q.1 q.2) [] ps = specGroup ps := by
  induction ps using List.reverseRecOn with
  | nil => rfl
  | append_singleton ps q ih =>
    rw [List.foldl_append, List.foldl_cons, List.foldl_nil, ih, specGroup_append]

/-- The `detect_sections` loop, split into tagging and dictionary
insertion. -/
theorem detect_foldl (ls : List (List Char)) :
    ∀ (acc : List (List Char × List (List Char))) (cur : List Char),
      (ls.foldl detectStep (acc, cur)).1 =
        List.foldl (fun m q => appendAt m q.1 q.2) acc (tagsFrom cur ls) := by
  induction ls with
  | nil => intro acc cur; rfl
  | cons l ls ih =>
    intro acc cur
    rw [List.foldl_cons, tagsFrom, List.foldl_cons]
    exact ih _ _

/-- Claim C6: section detection tags every line with the most recently
matched header (first matching header in list order wins, a header line is
bucketed under its own new section, lines before any header go to
"Uncategorized"), and the output maps each first-seen label, in first-seen
order, to its ordered lines; in particular `["Deposits",
"04-01-23  Salary  1000"]`-style inputs put the data line under
"Deposits". -/
theorem claim_C6 :
    (∀ lines : List (List Char), detect_sections lines = specSections lines) ∧
    detect_sections [("Deposits").toList, ("04/01/23  Salary  1000").toList] =
      [(("Deposits").toList, [("Deposits").toList, ("04/01/23  Salary  1000").toList])] := by
  constructor
  · intro lines
    unfold detect_sections specSections
    rw [detect_foldl lines [] uncategorizedLabel, foldl_appendAt_eq]
  · decide

end PdfToExcel
